import Mathlib

/-!
Verification of the ghost TFHE library core (torus.rs, tlwe.rs, tgsw.rs,
tfhe.rs, lwe.rs).  Rust f64 arithmetic is modelled over the rationals;
u64 / i64 casts are modelled explicitly where the source performs them.
Randomness (uniform draws and Gaussian noise) is passed in as explicit
arguments, so every source function becomes a deterministic Lean function
of its inputs and its random draws.
-/

set_option maxRecDepth 100000

attribute [local semireducible] Rat.add Rat.sub Rat.mul Rat.inv

namespace Ghost

/-- Source torus.rs: a real number wrapped into [0, 1).  The f64 payload is
modelled as a rational. -/
structure Torus where
  val : ℚ
  deriving DecidableEq

namespace Torus

/-- torus.rs Torus::new: wrapped = value - value.floor(). -/
def new (value : ℚ) : Torus := ⟨Int.fract value⟩

/-- torus.rs Torus::value. -/
def value (t : Torus) : ℚ := t.val

/-- torus.rs Torus::add. -/
def add (t o : Torus) : Torus := new (t.val + o.val)

/-- torus.rs Torus::sub. -/
def sub (t o : Torus) : Torus := new (t.val - o.val)

/-- torus.rs Torus::mul_scalar (scalar passed as f64 in the source). -/
def mul_scalar (t : Torus) (scalar : ℚ) : Torus := new (t.val * scalar)

end Torus

/-- Source tlwe.rs TlweParams. -/
structure TlweParams where
  n : ℕ
  stddev : ℚ
  deriving DecidableEq

/-- Source tlwe.rs TlweSecretKey (coefficients are i32 values). -/
structure TlweSecretKey where
  coeffs : List ℤ
  params : TlweParams
  deriving DecidableEq

/-- Source tlwe.rs TlweSample. -/
structure TlweSample where
  a : List Torus
  b : Torus
  params : TlweParams
  deriving DecidableEq

/-- The inner-product loop of tlwe.rs (encrypt / decrypt_phase):
for i in 0..n { inner_product += a[i].value() * (coeffs[i] as f64) }. -/
def innerTorus (n : ℕ) (a : List Torus) (s : List ℤ) : ℚ :=
  (List.range n).foldl (fun acc i => acc + (a.getD i ⟨0⟩).val * ((s.getD i 0 : ℤ) : ℚ)) 0

namespace TlweSample

/-- tlwe.rs TlweSample::encrypt.  The uniform draws for the mask and the
Gaussian error are explicit arguments. -/
def encrypt (message : Torus) (sk : TlweSecretKey) (mask : List ℚ) (err : ℚ) : TlweSample :=
  let a : List Torus := (List.range sk.params.n).map fun i => Torus.new (mask.getD i 0)
  let ip : ℚ := innerTorus sk.params.n a sk.coeffs
  { a := a, b := Torus.new (ip + message.val + err), params := sk.params }

/-- tlwe.rs TlweSample::decrypt_phase. -/
def decrypt_phase (self : TlweSample) (sk : TlweSecretKey) : Torus :=
  Torus.new (self.b.val - innerTorus sk.params.n self.a sk.coeffs)

/-- tlwe.rs TlweSample::decrypt_binary: phase in (0.25, 0.75). -/
def decrypt_binary (self : TlweSample) (sk : TlweSecretKey) : Bool :=
  let phase := self.decrypt_phase sk
  decide ((1 : ℚ)/4 < phase.val) && decide (phase.val < (3 : ℚ)/4)

/-- tlwe.rs TlweSample::add (component-wise torus addition). -/
def add (self other : TlweSample) : TlweSample :=
  { a := (self.a.zip other.a).map fun p => p.1.add p.2
    b := self.b.add other.b
    params := self.params }

/-- tlwe.rs TlweSample::sub. -/
def sub (self other : TlweSample) : TlweSample :=
  { a := (self.a.zip other.a).map fun p => p.1.sub p.2
    b := self.b.sub other.b
    params := self.params }

/-- tlwe.rs TlweSample::scalar_mul (i32 scalar, cast to f64 in the source). -/
def scalar_mul (self : TlweSample) (scalar : ℤ) : TlweSample :=
  { a := self.a.map fun x => x.mul_scalar (scalar : ℚ)
    b := self.b.mul_scalar (scalar : ℚ)
    params := self.params }

/-- tlwe.rs TlweSample::trivial: (0^n, message). -/
def trivial (message : Torus) (params : TlweParams) : TlweSample :=
  { a := List.replicate params.n (Torus.new 0), b := message, params := params }

end TlweSample

/-- Source tgsw.rs TgswParams. -/
structure TgswParams where
  l : ℕ
  bg_bit : ℕ
  tlwe_params : TlweParams
  deriving DecidableEq

/-- Source tgsw.rs TgswSample: a (k+1) x l matrix of TLWE samples. -/
structure TgswSample where
  samples : List (List TlweSample)
  k : ℕ
  l : ℕ
  params : TgswParams
  deriving DecidableEq

/-- Truncation toward zero, as the Rust cast of a f64 to i64 behaves. -/
def truncI (q : ℚ) : ℤ := if 0 ≤ q then ⌊q⌋ else -⌊-q⌋

/-- The digit-extraction loop of tgsw.rs TgswSample::decompose:
digit = (v % bg) - half_bg; v = v / bg (truncated i64 division). -/
def decompAux (bg half : ℤ) : ℕ → ℤ → List ℤ
  | 0, _ => []
  | m + 1, v => (v.tmod bg - half) :: decompAux bg half m (v.tdiv bg)

namespace TgswSample

/-- tgsw.rs TgswSample::encrypt.  rnd i j returns the (mask, error) draws
used for the TLWE encryption at row i, level j. -/
def encrypt (message : ℤ) (sk : TlweSecretKey) (params : TgswParams)
    (rnd : ℕ → ℕ → List ℚ × ℚ) : TgswSample :=
  let k := 1
  let bg : ℕ := 2 ^ params.bg_bit
  { samples :=
      (List.range (k + 1)).map fun i =>
        (List.range params.l).map fun j =>
          let h : ℚ := 1 / ((bg ^ (j + 1) : ℕ) : ℚ)
          let msgv : ℚ :=
            if i = 0 then -((sk.coeffs.getD 0 0 : ℤ) : ℚ) * (message : ℚ) * h
            else (message : ℚ) * h
          TlweSample.encrypt (Torus.new msgv) sk (rnd i j).1 (rnd i j).2
    k := k
    l := params.l
    params := params }

/-- tgsw.rs TgswSample::trivial. -/
def trivial (message : ℤ) (params : TgswParams) : TgswSample :=
  let k := 1
  let bg : ℕ := 2 ^ params.bg_bit
  { samples :=
      (List.range (k + 1)).map fun i =>
        (List.range params.l).map fun j =>
          let h : ℚ := 1 / ((bg ^ (j + 1) : ℕ) : ℚ)
          let msgv : ℚ := if i = k then (message : ℚ) * h else 0
          TlweSample.trivial (Torus.new msgv) params.tlwe_params
    k := k
    l := params.l
    params := params }

/-- tgsw.rs TgswSample::decompose: v = (value * 2^32) as i64, then l rounds
of (v % bg) - half_bg with v = v / bg. -/
def decompose (value : Torus) (params : TgswParams) : List ℤ :=
  let bg : ℤ := 2 ^ params.bg_bit
  let half_bg : ℤ := bg / 2
  decompAux bg half_bg params.l (truncI (value.val * 2 ^ 32))

/-- One update of the accumulator (result_a, result_b) inside the loops of
tgsw.rs TgswSample::external_product: add samp scaled by scalar. -/
def extStep (n : ℕ) (samp : TlweSample) (scalar : ℚ) (st : List Torus × Torus) :
    List Torus × Torus :=
  ((List.range n).map fun idx => (st.1.getD idx ⟨0⟩).add ((samp.a.getD idx ⟨0⟩).mul_scalar scalar),
   st.2.add (samp.b.mul_scalar scalar))

/-- tgsw.rs TgswSample::external_product.  Note the source decomposes every
a-component but its accumulation loop indexes decomposed_a by the row index
i (0 <= i < k), so with k = 1 only the decomposition of a[0] is used. -/
def external_product (self : TgswSample) (tlwe : TlweSample) : TlweSample :=
  let n := self.params.tlwe_params.n
  let dflt : TlweSample := TlweSample.trivial ⟨0⟩ self.params.tlwe_params
  let decomposed_a : List (List ℤ) :=
    (List.range n).map fun i => decompose (tlwe.a.getD i ⟨0⟩) self.params
  let decomposed_b : List ℤ := decompose tlwe.b self.params
  let st : List Torus × Torus :=
    (List.range (self.k + 1)).foldl
      (fun st i =>
        (List.range self.l).foldl
          (fun st j =>
            if i < self.k then
              extStep n ((self.samples.getD i []).getD j dflt)
                (((decomposed_a.getD i []).getD j 0 : ℤ) : ℚ) st
            else
              extStep n ((self.samples.getD i []).getD j dflt)
                ((decomposed_b.getD j 0 : ℤ) : ℚ) st)
          st)
      (List.replicate n (Torus.new 0), Torus.new 0)
  { a := st.1, b := st.2, params := self.params.tlwe_params }

/-- tgsw.rs TgswSample::cmux: c0 + selector x (c1 - c0). -/
def cmux (self : TgswSample) (c0 c1 : TlweSample) : TlweSample :=
  let diff := c1.sub c0
  let product := self.external_product diff
  product.add c0

end TgswSample

/-- Source tgsw.rs BootstrappingKey. -/
structure BootstrappingKey where
  bk : List TgswSample
  n : ℕ
  params : TgswParams
  deriving DecidableEq

/-- tgsw.rs BootstrappingKey::generate: one TGSW encryption of each secret
key coefficient.  rnd i gives the random draws of the i-th encryption. -/
def BootstrappingKey.generate (sk : TlweSecretKey) (params : TgswParams)
    (rnd : ℕ → ℕ → ℕ → List ℚ × ℚ) : BootstrappingKey :=
  { bk := (List.range sk.params.n).map fun i =>
      TgswSample.encrypt (sk.coeffs.getD i 0) sk params (rnd i)
    n := sk.params.n
    params := params }

/-- Source tfhe.rs TfheParams. -/
structure TfheParams where
  tlwe_params : TlweParams
  tgsw_params : TgswParams
  n : ℕ
  N : ℕ
  k : ℕ
  deriving DecidableEq

/-- Source tfhe.rs TfheSecretKey. -/
structure TfheSecretKey where
  tlwe_key : TlweSecretKey
  params : TfheParams
  deriving DecidableEq

/-- Source tlwe.rs TlweKeySwitchKey (declared but never consumed by the
gate layer). -/
structure TlweKeySwitchKey where
  samples : List (List TlweSample)
  n : ℕ
  t : ℕ
  base_bit : ℕ
  deriving DecidableEq

/-- Source tfhe.rs TfheCloudKey. -/
structure TfheCloudKey where
  bootstrapping_key : BootstrappingKey
  key_switching_key : Option TlweKeySwitchKey
  deriving DecidableEq

/-- tfhe.rs TfheCloudKey::generate: bootstrapping key from the secret key;
key_switching_key is always None. -/
def TfheCloudKey.generate (sk : TfheSecretKey) (rnd : ℕ → ℕ → ℕ → List ℚ × ℚ) :
    TfheCloudKey :=
  { bootstrapping_key := BootstrappingKey.generate sk.tlwe_key sk.params.tgsw_params rnd
    key_switching_key := none }

namespace TfheGates

/-- tfhe.rs TfheGates::programmable_bootstrap: acc starts as the trivial
sample of lut[0]; each of the n steps runs acc = bk[i].cmux(acc, acc).
(The source also binds N = lut.len() without using it.) -/
def programmable_bootstrap (input : TlweSample) (lut : List Torus)
    (bk : BootstrappingKey) : TlweSample :=
  let acc0 := TlweSample.trivial (lut.getD 0 ⟨0⟩) input.params
  (bk.bk.take bk.n).foldl (fun acc g => g.cmux acc acc) acc0

/-- The lookup table built inside tfhe.rs TfheGates::nand: 0.625 on
indices 0..512, 0.125 on 512..1024. -/
def nandLut : List Torus :=
  (List.range 1024).map fun i => if i < 512 then Torus.new (5/8) else Torus.new (1/8)

/-- tfhe.rs TfheGates::nand: result = -a - b with 0.625 added to b, then a
programmable bootstrap. -/
def nand (a b : TlweSample) (ck : TfheCloudKey) : TlweSample :=
  let r1 := a.scalar_mul (-1)
  let r2 := r1.sub b
  let r3 : TlweSample := { r2 with b := r2.b.add (Torus.new (5/8)) }
  programmable_bootstrap r3 nandLut ck.bootstrapping_key

/-- The lookup table built inside tfhe.rs TfheGates::xor: 0.625 on indices
256..768, 0.125 elsewhere. -/
def xorLut : List Torus :=
  (List.range 1024).map fun i =>
    if 256 ≤ i ∧ i < 768 then Torus.new (5/8) else Torus.new (1/8)

/-- The sample tfhe.rs TfheGates::xor pre-combines and hands to the
bootstrap: (a - b) scaled by 2. -/
def xorPre (a b : TlweSample) : TlweSample := (a.sub b).scalar_mul 2

/-- tfhe.rs TfheGates::xor. -/
def xor (a b : TlweSample) (ck : TfheCloudKey) : TlweSample :=
  programmable_bootstrap (xorPre a b) xorLut ck.bootstrapping_key

/-- The lookup table built inside tfhe.rs TfheGates::not (identical to the
one in nand). -/
def notLut : List Torus :=
  (List.range 1024).map fun i => if i < 512 then Torus.new (5/8) else Torus.new (1/8)

/-- The affine pre-combination computed inside tfhe.rs TfheGates::not:
negate the sample and add 0.5 to the b component. -/
def notAffine (a : TlweSample) : TlweSample :=
  let r1 := a.scalar_mul (-1)
  { r1 with b := r1.b.add (Torus.new (1/2)) }

/-- tfhe.rs TfheGates::not: the affine negation followed by a programmable
bootstrap. -/
def not (a : TlweSample) (ck : TfheCloudKey) : TlweSample :=
  programmable_bootstrap (notAffine a) notLut ck.bootstrapping_key

end TfheGates

namespace TfheEncoder

/-- tfhe.rs TfheEncoder::encode_bool: true encodes as 0.625, false as
0.125, then TLWE encryption (random draws explicit). -/
def encode_bool (value : Bool) (sk : TfheSecretKey) (mask : List ℚ) (err : ℚ) :
    TlweSample :=
  let message := if value then Torus.new (5/8) else Torus.new (1/8)
  TlweSample.encrypt message sk.tlwe_key mask err

/-- tfhe.rs TfheEncoder::decode_bool: delegate to decrypt_binary. -/
def decode_bool (sample : TlweSample) (sk : TfheSecretKey) : Bool :=
  sample.decrypt_binary sk.tlwe_key

end TfheEncoder

/-! Concrete zero-noise instances used to evaluate the gate layer: TLWE
dimension 2, binary secret key (1, 1), TGSW levels l = 2 with Bg_bits = 8
(the S4 parameter set of the spec), and every random draw set to zero. -/

def demoTlweParams : TlweParams := ⟨2, 0⟩

def demoSk : TlweSecretKey := ⟨[1, 1], demoTlweParams⟩

def demoTgswParams : TgswParams := ⟨2, 8, demoTlweParams⟩

def demoTfheParams : TfheParams := ⟨demoTlweParams, demoTgswParams, 2, 1024, 1⟩

def demoTfheSk : TfheSecretKey := ⟨demoSk, demoTfheParams⟩

def demoCk : TfheCloudKey := TfheCloudKey.generate demoTfheSk (fun _ _ _ => ([0, 0], 0))

/-- Zero-noise gate-layer encryption of true: mask (0,0), b = 0.625. -/
def ctTrue : TlweSample := TfheEncoder.encode_bool true demoTfheSk [0, 0] 0

/-- Zero-noise gate-layer encryption of false: mask (0,0), b = 0.125. -/
def ctFalse : TlweSample := TfheEncoder.encode_bool false demoTfheSk [0, 0] 0

/-- Zero-noise TGSW encryption of the selector bit 1 under demoSk. -/
def selC3 : TgswSample := TgswSample.encrypt 1 demoSk demoTgswParams (fun _ _ => ([0, 0], 0))

/-- A TLWE ciphertext of phase 0.1 under demoSk (zero mask, zero noise). -/
def c3c0 : TlweSample := ⟨[⟨0⟩, ⟨0⟩], ⟨1/10⟩, demoTlweParams⟩

/-- A TLWE ciphertext of phase 0.7 under demoSk: a = (0, 1/3), b = 1/30,
so b - (a·s) = 1/30 - 1/3 = -3/10, i.e. phase 7/10. -/
def c3c1 : TlweSample := ⟨[⟨0⟩, ⟨1/3⟩], ⟨1/30⟩, demoTlweParams⟩

/-- The phase of CMux(selector = 1, c3c0, c3c1) under demoSk. -/
def c3phase : ℚ := ((selC3.cmux c3c0 c3c1).decrypt_phase demoSk).val

/-- The recomposition named by the spec: sum of d_j * Bg^-(j+1), starting
at level j. -/
def recompose (bg_bit : ℕ) : List ℤ → ℕ → ℚ
  | [], _ => 0
  | d :: ds, j => (d : ℚ) / (((2 ^ bg_bit : ℕ) : ℚ) ^ (j + 1)) + recompose bg_bit ds (j + 1)

/-- Distance from a rational to the nearest integer (distance on the
torus). -/
def distMod1 (q : ℚ) : ℚ := min (Int.fract q) (1 - Int.fract q)

/-- The digits the source produces for torus value 1/4 with l = 2,
Bg_bits = 8. -/
def c4digits : List ℤ := TgswSample.decompose (Torus.new (1/4)) demoTgswParams

/-- The pre-combination the spec prescribes for XOR: 2*(a + b) + (0, 1/4).
Modelled from the spec for comparison with the source's xorPre. -/
def xorPreSpec (a b : TlweSample) : TlweSample :=
  let s := (a.add b).scalar_mul 2
  { s with b := s.b.add (Torus.new (1/4)) }

def c7params : TlweParams := ⟨0, 0⟩

def c7sk : TfheSecretKey := ⟨⟨[], c7params⟩, ⟨c7params, demoTgswParams, 0, 1024, 1⟩⟩

/-- A ciphertext of phase exactly 1/8 under the empty key. -/
def c7ct : TlweSample := ⟨[], ⟨1/8⟩, c7params⟩

/-- The Rust cast of a u64 value (here: a natural below 2^64) to i64. -/
def toI64 (x : ℕ) : ℤ := if x < 2 ^ 63 then (x : ℤ) else (x : ℤ) - 2 ^ 64

/-- The Rust cast of an i64 value to u64 (two's-complement wrap). -/
def toU64 (z : ℤ) : ℕ := (z % (2 ^ 64 : ℤ)).toNat

/-- Source lwe.rs LweParams (q is a u64 modulus). -/
structure LweParams where
  n : ℕ
  q : ℕ
  stddev : ℚ
  deriving DecidableEq

/-- Source lwe.rs LweSecretKey (i32 coefficients). -/
structure LweSecretKey where
  coeffs : List ℤ
  params : LweParams
  deriving DecidableEq

/-- Source lwe.rs LweCiphertext (u64 components). -/
structure LweCiphertext where
  a : List ℕ
  b : ℕ
  params : LweParams
  deriving DecidableEq

/-- The inner-product loop shared by lwe.rs encrypt and decrypt:
inner_product += (a[i] as i64) * (coeffs[i] as i64); inner_product %= q as
i64 — the i64 remainder truncates toward zero. -/
def lweInner (n : ℕ) (a : List ℕ) (s : List ℤ) (q : ℕ) : ℤ :=
  (List.range n).foldl
    (fun acc i => (acc + toI64 (a.getD i 0) * s.getD i 0).tmod (toI64 q)) 0

namespace LweCiphertext

/-- The reduced mask lwe.rs LweCiphertext::encrypt stores: each uniform
u64 draw taken mod q. -/
def encryptMask (sk : LweSecretKey) (mask : List ℕ) : List ℕ :=
  (List.range sk.params.n).map fun i => mask.getD i 0 % sk.params.q

/-- The i64 value (inner_product + message + error) % q computed inside
lwe.rs LweCiphertext::encrypt before it is cast to u64. -/
def encryptRaw (message : ℕ) (sk : LweSecretKey) (mask : List ℕ) (err : ℤ) : ℤ :=
  (lweInner sk.params.n (encryptMask sk mask) sk.coeffs sk.params.q
    + toI64 message + err).tmod (toI64 sk.params.q)

/-- lwe.rs LweCiphertext::encrypt.  The uniform mask draws and the (already
rounded) Gaussian error are explicit arguments. -/
def encrypt (message : ℕ) (sk : LweSecretKey) (mask : List ℕ) (err : ℤ) :
    LweCiphertext :=
  { a := encryptMask sk mask
    b := toU64 (encryptRaw message sk mask err)
    params := sk.params }

/-- lwe.rs LweCiphertext::decrypt: (b - inner_product) % q, fixed up to
[0, q), then cast back to u64. -/
def decrypt (self : LweCiphertext) (sk : LweSecretKey) : ℕ :=
  let ip := lweInner sk.params.n self.a sk.coeffs self.params.q
  let m0 := (toI64 self.b - ip).tmod (toI64 self.params.q)
  let m1 := if m0 < 0 then m0 + toI64 self.params.q else m0
  toU64 m1

/-- lwe.rs LweCiphertext::add: component-wise (x + y) % q; the u64
addition itself wraps modulo 2^64. -/
def add (self other : LweCiphertext) : LweCiphertext :=
  { a := (self.a.zip other.a).map fun p => (p.1 + p.2) % 2 ^ 64 % self.params.q
    b := (self.b + other.b) % 2 ^ 64 % self.params.q
    params := self.params }

/-- lwe.rs LweCiphertext::scalar_mul: component-wise (x * scalar) % q; the
u64 multiplication wraps modulo 2^64. -/
def scalar_mul (self : LweCiphertext) (scalar : ℕ) : LweCiphertext :=
  { a := self.a.map fun x => x * scalar % 2 ^ 64 % self.params.q
    b := self.b * scalar % 2 ^ 64 % self.params.q
    params := self.params }

end LweCiphertext

/-- LWE key with n = 1, q = 1024, sigma = 1 and the binary coefficient 1. -/
def c8sk : LweSecretKey := ⟨[1], ⟨1, 1024, 1⟩⟩

/-- LWE key with n = 1, q = 1024, sigma = 1 and the binary coefficient 0. -/
def c10sk : LweSecretKey := ⟨[0], ⟨1, 1024, 1⟩⟩

/-- C1: the NAND truth table fails on the code.  With the S4/S5-style
parameters above and zero noise, NAND(true,true) and NAND(true,false) both
decrypt to true, but the claim requires NAND(true,true) to decrypt to
false.  The blind-rotation loop runs cmux(acc, acc), so the bootstrap
output never depends on the gate inputs. -/
theorem nand_truth_table_fails :
    TfheEncoder.decode_bool (TfheGates.nand ctTrue ctTrue demoCk) demoTfheSk = true ∧
    TfheEncoder.decode_bool (TfheGates.nand ctTrue ctFalse demoCk) demoTfheSk = true := by
  decide

/-- C2: programmable_bootstrap is a deterministic function that ignores
the content of the input ciphertext: two inputs with equal params, the
same lookup table and the same bootstrapping key give identical outputs. -/
theorem programmable_bootstrap_input_independent
    (input₁ input₂ : TlweSample) (lut : List Torus) (bk : BootstrappingKey)
    (h : input₁.params = input₂.params) :
    TfheGates.programmable_bootstrap input₁ lut bk =
    TfheGates.programmable_bootstrap input₂ lut bk := by
  unfold TfheGates.programmable_bootstrap
  rw [h]

/-- Witness for C2: the zero-noise encryptions of true and false have
different contents but equal params, and bootstrap to the same output. -/
theorem programmable_bootstrap_input_independent_witness :
    TfheGates.programmable_bootstrap ctTrue TfheGates.nandLut demoCk.bootstrapping_key =
    TfheGates.programmable_bootstrap ctFalse TfheGates.nandLut demoCk.bootstrapping_key :=
  programmable_bootstrap_input_independent ctTrue ctFalse TfheGates.nandLut
    demoCk.bootstrapping_key rfl

/-- C3: CMux selection fails on the code.  With the S4 parameters (l = 2,
Bg_bits = 8), a selector encrypting 1 and ciphertexts of phases 0.1 and
0.7, the CMux output phase is 5459/163840 (about 0.033), which is farther
than 0.01 from 0.7 even modulo 1: the external product decomposes only
a[0] and b, and its low-bit gadget decomposition does not reconstruct the
phase.  The source test test_tgsw_cmux asserts the claimed property. -/
theorem cmux_selection_fails :
    c3phase = 5459/163840 ∧
    (c3c1.decrypt_phase demoSk).val = 7/10 ∧
    (1 : ℚ)/100 ≤ |c3phase - 7/10| ∧ |c3phase - 7/10| ≤ 1 - 1/100 := by
  decide

/-- C4 counterexample: for v = 1/4 with l = 2, Bg_bits = 8 the digits are
(-128, -128) and the recomposition is -1/2 - 1/512, which misses 1/4 by
about 0.248 even modulo 1 — far more than Bg^-l = 2^-16.  The source
decomposes the low-order bits of v * 2^32, not the top l * Bg_bits bits. -/
theorem decompose_roundtrip_fails :
    c4digits = [-128, -128] ∧
    ¬ |recompose 8 c4digits 0 - 1/4| < ((1 : ℚ)/2^8)^2 ∧
    ¬ distMod1 (recompose 8 c4digits 0 - 1/4) < ((1 : ℚ)/2^8)^2 := by
  decide

lemma decompAux_length (bg half : ℤ) : ∀ (m : ℕ) (v : ℤ),
    (decompAux bg half m v).length = m := by
  intro m
  induction m with
  | zero => intro v; rfl
  | succ m ih => intro v; simp [decompAux, ih]

lemma decompAux_bounds (bb : ℕ) : ∀ (m : ℕ) (v : ℤ), 0 ≤ v →
    ∀ d ∈ decompAux ((2 : ℤ) ^ bb) ((2 : ℤ) ^ bb / 2) m v,
      -((2 : ℤ) ^ bb / 2) ≤ d ∧ d ≤ (2 : ℤ) ^ bb / 2 := by
  intro m
  induction m with
  | zero => intro v _ d hd; simp [decompAux] at hd
  | succ m ih =>
      intro v hv d hd
      have hbgpos : (0 : ℤ) < 2 ^ bb := by positivity
      simp only [decompAux, List.mem_cons] at hd
      rcases hd with hd | hd
      · subst hd
        have h0 : 0 ≤ v.tmod ((2 : ℤ) ^ bb) := Int.tmod_nonneg _ hv
        have h1 : v.tmod ((2 : ℤ) ^ bb) < (2 : ℤ) ^ bb := Int.tmod_lt_of_pos _ hbgpos
        have h2 : (2 : ℤ) ^ bb / 2 + (2 : ℤ) ^ bb / 2 = (2 : ℤ) ^ bb ∨
            ((2 : ℤ) ^ bb = 1 ∧ (2 : ℤ) ^ bb / 2 = 0) := by
          cases bb with
          | zero => right; constructor <;> rfl
          | succ b =>
              left
              have : (2 : ℤ) ^ (b + 1) = 2 * 2 ^ b := by ring
              rw [this]
              omega
        omega
      · exact ih (v.tdiv ((2 : ℤ) ^ bb)) (Int.tdiv_nonneg hv (le_of_lt hbgpos)) d hd

/-- C4 amended: for a torus value in [0, 1), decompose returns exactly l
signed-balanced digits with |d_j| <= Bg/2; the recomposition accuracy
claimed by the spec does not hold (see the counterexample). -/
theorem decompose_digits_bounded (t : Torus) (P : TgswParams) (h : 0 ≤ t.val) :
    (TgswSample.decompose t P).length = P.l ∧
    ∀ d ∈ TgswSample.decompose t P,
      -((2 : ℤ) ^ P.bg_bit / 2) ≤ d ∧ d ≤ (2 : ℤ) ^ P.bg_bit / 2 := by
  have hv : 0 ≤ truncI (t.val * 2 ^ 32) := by
    have h32 : (0 : ℚ) ≤ t.val * 2 ^ 32 := by positivity
    rw [truncI, if_pos h32]
    exact Int.floor_nonneg.mpr h32
  exact ⟨decompAux_length _ _ _ _, decompAux_bounds P.bg_bit P.l _ hv⟩

/-- Witness for C4 amended at v = 1/4, l = 2, Bg_bits = 8. -/
theorem decompose_digits_bounded_witness :
    0 ≤ (Torus.new (1/4)).val ∧
    ((TgswSample.decompose (Torus.new (1/4)) demoTgswParams).length = demoTgswParams.l ∧
      ∀ d ∈ TgswSample.decompose (Torus.new (1/4)) demoTgswParams,
        -((2 : ℤ) ^ demoTgswParams.bg_bit / 2) ≤ d ∧
          d ≤ (2 : ℤ) ^ demoTgswParams.bg_bit / 2) :=
  ⟨by decide, decompose_digits_bounded (Torus.new (1/4)) demoTgswParams (by decide)⟩

/-- C5 counterexample: on the zero-noise encryption of true,
TfheGates::not returns neither the affine negation with the b-shift by 1/2
(the pre-combination the source itself builds) nor the plain negation of
the sample: the result is a bootstrap output, not an affine transform of
the input. -/
theorem not_returns_bootstrap_not_negation :
    TfheGates.not ctTrue demoCk ≠ TfheGates.notAffine ctTrue ∧
    TfheGates.not ctTrue demoCk ≠ ctTrue.scalar_mul (-1) := by
  decide

/-- C5 amended: TfheGates::not computes the affine negation (component-wise
negation with 1/2 added to b) only as a pre-combination, and then passes it
through a programmable bootstrap; the gate is not bootstrap-free. -/
theorem not_bootstraps_affine_negation (a : TlweSample) (ck : TfheCloudKey) :
    TfheGates.not a ck =
      TfheGates.programmable_bootstrap (TfheGates.notAffine a) TfheGates.notLut
        ck.bootstrapping_key ∧
    (TfheGates.notAffine a).a = a.a.map (fun t => t.mul_scalar (-1)) ∧
    (TfheGates.notAffine a).b = (a.b.mul_scalar (-1)).add (Torus.new (1/2)) :=
  ⟨rfl, rfl, rfl⟩

/-- C6 counterexample: on the zero-noise encryptions of true and false the
sample xor hands to the bootstrap differs from the spec's affine
combination 2*(a + b) + (0, 1/4): the source computes 2*(a - b) with no
constant shift (b component 0 instead of 3/4). -/
theorem xor_precombination_differs_from_spec :
    TfheGates.xorPre ctTrue ctFalse ≠ xorPreSpec ctTrue ctFalse ∧
    (TfheGates.xorPre ctTrue ctFalse).b = Torus.new 0 ∧
    (xorPreSpec ctTrue ctFalse).b = Torus.new (3/4) := by
  decide

/-- C6 amended: the sample TfheGates::xor pre-combines and passes to the
programmable bootstrap is 2*(a - b), with no constant term added. -/
theorem xor_precombination (a b : TlweSample) (ck : TfheCloudKey) :
    TfheGates.xor a b ck =
      TfheGates.programmable_bootstrap (TfheGates.xorPre a b) TfheGates.xorLut
        ck.bootstrapping_key ∧
    TfheGates.xorPre a b = (a.sub b).scalar_mul 2 ∧
    (TfheGates.xorPre a b).b = (a.b.sub b.b).mul_scalar 2 :=
  ⟨rfl, rfl, rfl⟩

/-- C7 counterexample: a ciphertext of phase 1/8 has phase in (0, 1/2),
yet decode_bool returns false: the source tests phase against (1/4, 3/4),
not (0, 1/2). -/
theorem decode_bool_not_zero_half_band :
    (0 : ℚ) < (c7ct.decrypt_phase c7sk.tlwe_key).val ∧
    (c7ct.decrypt_phase c7sk.tlwe_key).val < 1/2 ∧
    TfheEncoder.decode_bool c7ct c7sk = false := by
  decide

/-- C7 amended: decode_bool returns true exactly when the phase lies in
the open interval (1/4, 3/4). -/
theorem decode_bool_iff_quarter_band (sample : TlweSample) (sk : TfheSecretKey) :
    TfheEncoder.decode_bool sample sk = true ↔
    ((1 : ℚ)/4 < (sample.decrypt_phase sk.tlwe_key).val ∧
      (sample.decrypt_phase sk.tlwe_key).val < (3 : ℚ)/4) := by
  simp [TfheEncoder.decode_bool, TlweSample.decrypt_binary]

lemma tmod_lb (a : ℤ) {b : ℤ} (hb : 0 < b) : -b < a.tmod b := by
  rcases le_or_lt 0 a with h | h
  · have := Int.tmod_nonneg b h
    omega
  · have h1 : (-a).tmod b = -(a.tmod b) := by
      rw [Int.tmod_def, Int.tmod_def, Int.neg_tdiv]; ring
    have h2 : (-a).tmod b < b := Int.tmod_lt_of_pos _ hb
    omega

lemma toI64_toU64 (z : ℤ) (h1 : -(2 ^ 63) ≤ z) (h2 : z < 2 ^ 63) :
    toI64 (toU64 z) = z := by
  unfold toI64 toU64
  have h64 : (2 : ℤ) ^ 64 = 18446744073709551616 := by norm_num
  have h63n : (2 : ℕ) ^ 63 = 9223372036854775808 := by norm_num
  rw [h64, h63n] at *
  split <;> omega

lemma tmod_emod_congr (x y q : ℤ) : (x.tmod q + y) % q = (x + y) % q := by
  rw [Int.tmod_def]
  have h : x - q * x.tdiv q + y = x + y + q * (-x.tdiv q) := by ring
  rw [h, Int.add_mul_emod_self_left]

lemma tmod_fixup (x : ℤ) {q : ℤ} (hq : 0 < q) :
    (if x.tmod q < 0 then x.tmod q + q else x.tmod q) = x % q := by
  have hlb := tmod_lb x hq
  have hub := Int.tmod_lt_of_pos x hq
  have hcong : x.tmod q % q = x % q := by
    have h := tmod_emod_congr x 0 q
    simpa using h
  rcases lt_or_le (x.tmod q) 0 with h | h
  · rw [if_pos h]
    have e1 : (x.tmod q + q * 1) % q = x.tmod q % q := Int.add_mul_emod_self_left _ _ _
    have e2 : (x.tmod q + q) % q = x.tmod q + q :=
      Int.emod_eq_of_lt (by omega) (by omega)
    simp only [mul_one] at e1
    omega
  · rw [if_neg (by omega)]
    have e2 : x.tmod q % q = x.tmod q := Int.emod_eq_of_lt h hub
    omega

/-- C8 amended: LWE decryption of a fresh encryption recovers the message
shifted by the rounded Gaussian error, reduced mod q — not the message
itself: the source adds the error directly to the message and decryption
performs no rounding that could absorb it. -/
theorem lwe_encrypt_decrypt_amended (m : ℕ) (sk : LweSecretKey) (mask : List ℕ) (e : ℤ)
    (hq0 : 0 < sk.params.q) (hq : sk.params.q ≤ 2 ^ 32) (hm : m < 2 ^ 63) :
    (LweCiphertext.encrypt m sk mask e).decrypt sk =
      (((m : ℤ) + e) % (sk.params.q : ℤ)).toNat := by
  have hqZ : (0 : ℤ) < (sk.params.q : ℤ) := by exact_mod_cast hq0
  have hqZ32 : (sk.params.q : ℤ) ≤ 2 ^ 32 := by exact_mod_cast hq
  have hqI : toI64 sk.params.q = (sk.params.q : ℤ) := by
    rw [toI64, if_pos (by omega)]
  have hmI : toI64 m = (m : ℤ) := by rw [toI64, if_pos hm]
  have hb1 : -(sk.params.q : ℤ) < LweCiphertext.encryptRaw m sk mask e := by
    rw [LweCiphertext.encryptRaw, hqI]
    exact tmod_lb _ hqZ
  have hb2 : LweCiphertext.encryptRaw m sk mask e < (sk.params.q : ℤ) := by
    rw [LweCiphertext.encryptRaw, hqI]
    exact Int.tmod_lt_of_pos _ hqZ
  have hrt : toI64 (toU64 (LweCiphertext.encryptRaw m sk mask e)) =
      LweCiphertext.encryptRaw m sk mask e :=
    toI64_toU64 _ (by omega) (by omega)
  simp only [LweCiphertext.decrypt, LweCiphertext.encrypt]
  rw [hrt, hqI]
  rw [tmod_fixup _ hqZ]
  have hsub : (LweCiphertext.encryptRaw m sk mask e -
      lweInner sk.params.n (LweCiphertext.encryptMask sk mask) sk.coeffs sk.params.q) %
        (sk.params.q : ℤ) = ((m : ℤ) + e) % (sk.params.q : ℤ) := by
    rw [LweCiphertext.encryptRaw, hqI, hmI]
    have h := tmod_emod_congr
      (lweInner sk.params.n (LweCiphertext.encryptMask sk mask) sk.coeffs sk.params.q
        + (m : ℤ) + e)
      (-(lweInner sk.params.n (LweCiphertext.encryptMask sk mask) sk.coeffs sk.params.q))
      (sk.params.q : ℤ)
    have h2 : lweInner sk.params.n (LweCiphertext.encryptMask sk mask) sk.coeffs sk.params.q
        + (m : ℤ) + e
        + (-(lweInner sk.params.n (LweCiphertext.encryptMask sk mask) sk.coeffs sk.params.q))
        = (m : ℤ) + e := by ring
    rw [h2] at h
    rw [← h]
    ring_nf
  rw [hsub]
  have h0 : 0 ≤ ((m : ℤ) + e) % (sk.params.q : ℤ) := Int.emod_nonneg _ (ne_of_gt hqZ)
  have h1 : ((m : ℤ) + e) % (sk.params.q : ℤ) < (sk.params.q : ℤ) :=
    Int.emod_lt_of_pos _ hqZ
  rw [toU64, Int.emod_eq_of_lt h0 (by omega)]

/-- C8 counterexample: with q = 1024 and sigma = 1 (so 5 sigma < q/2, with
message scale 1) and a drawn error of 1 (within the 5 sigma bound),
decrypting the encryption of 42 returns 43, not 42. -/
theorem lwe_decrypt_not_message :
    (LweCiphertext.encrypt 42 c8sk [7] 1).decrypt c8sk ≠ 42 ∧
    5 * c8sk.params.stddev < (c8sk.params.q : ℚ) / 2 ∧
    |(1 : ℚ)| ≤ 5 * c8sk.params.stddev := by
  decide

/-- Witness for C8 amended: decrypt(encrypt 42) with error 1 gives
(42 + 1) mod 1024 = 43. -/
theorem lwe_encrypt_decrypt_amended_witness :
    (LweCiphertext.encrypt 42 c8sk [7] 1).decrypt c8sk = 43 := by
  have h := lwe_encrypt_decrypt_amended 42 c8sk [7] 1 (by decide) (by decide) (by decide)
  rw [h]
  decide

/-- C10 amended: add and scalar_mul always return components in [0, q);
encrypt always returns its mask components in [0, q), and returns b in
[0, q) exactly when the i64 value (inner product + message + error) mod q
is nonnegative — a negative value (possible with a ternary key or a
negative noise draw) wraps b to a u64 outside the range. -/
theorem lwe_range_amended :
    (∀ c1 c2 : LweCiphertext, 0 < c1.params.q →
        (∀ z ∈ (c1.add c2).a, z < c1.params.q) ∧ (c1.add c2).b < c1.params.q) ∧
    (∀ (c : LweCiphertext) (s : ℕ), 0 < c.params.q →
        (∀ z ∈ (c.scalar_mul s).a, z < c.params.q) ∧ (c.scalar_mul s).b < c.params.q) ∧
    (∀ (m : ℕ) (sk : LweSecretKey) (mask : List ℕ) (e : ℤ), 0 < sk.params.q →
        (∀ z ∈ (LweCiphertext.encrypt m sk mask e).a, z < sk.params.q) ∧
        (sk.params.q ≤ 2 ^ 32 → 0 ≤ LweCiphertext.encryptRaw m sk mask e →
          (LweCiphertext.encrypt m sk mask e).b < sk.params.q)) := by
  refine ⟨?_, ?_, ?_⟩
  · intro c1 c2 hq
    constructor
    · intro z hz
      simp only [LweCiphertext.add, List.mem_map] at hz
      obtain ⟨p, hp, rfl⟩ := hz
      exact Nat.mod_lt _ hq
    · exact Nat.mod_lt _ hq
  · intro c s hq
    constructor
    · intro z hz
      simp only [LweCiphertext.scalar_mul, List.mem_map] at hz
      obtain ⟨p, hp, rfl⟩ := hz
      exact Nat.mod_lt _ hq
    · exact Nat.mod_lt _ hq
  · intro m sk mask e hq
    constructor
    · intro z hz
      simp only [LweCiphertext.encrypt, LweCiphertext.encryptMask, List.mem_map,
        List.mem_range] at hz
      obtain ⟨i, hi, rfl⟩ := hz
      exact Nat.mod_lt _ hq
    · intro h32 hge
      have hqZ : (0 : ℤ) < (sk.params.q : ℤ) := by exact_mod_cast hq
      have hqZ32 : (sk.params.q : ℤ) ≤ 2 ^ 32 := by exact_mod_cast h32
      have hqI : toI64 sk.params.q = (sk.params.q : ℤ) := by
        rw [toI64, if_pos (by omega)]
      have hb2 : LweCiphertext.encryptRaw m sk mask e < (sk.params.q : ℤ) := by
        rw [LweCiphertext.encryptRaw, hqI]
        exact Int.tmod_lt_of_pos _ hqZ
      show toU64 (LweCiphertext.encryptRaw m sk mask e) < sk.params.q
      rw [toU64, Int.emod_eq_of_lt hge (by omega)]
      omega

/-- C10 counterexample: encrypting message 0 under a binary key with an
error draw of -1 puts b = 2^64 - 1, far outside [0, q): the negative i64
remainder is cast to u64 and wraps. -/
theorem lwe_encrypt_b_out_of_range :
    (LweCiphertext.encrypt 0 c10sk [0] (-1)).b = 2 ^ 64 - 1 ∧
    ¬ (LweCiphertext.encrypt 0 c10sk [0] (-1)).b < c10sk.params.q := by
  decide

/-- Witness for C10 amended, at the concrete C8 instance. -/
theorem lwe_range_amended_witness :
    (∀ z ∈ (LweCiphertext.encrypt 42 c8sk [7] 1).a, z < c8sk.params.q) ∧
    (LweCiphertext.encrypt 42 c8sk [7] 1).b < c8sk.params.q :=
  ⟨(lwe_range_amended.2.2 42 c8sk [7] 1 (by decide)).1,
   (lwe_range_amended.2.2 42 c8sk [7] 1 (by decide)).2 (by decide) (by decide)⟩

/-- C9: torus wrap.  Torus::new lands in [0,1) and Torus::new (x+y) equals
Torus::new x + Torus::new y, i.e. wrap-safe addition commutes with the
reduction modulo 1. -/
theorem torus_new_range_and_add_hom (x y : ℚ) :
    (0 ≤ (Torus.new x).value ∧ (Torus.new x).value < 1) ∧
    Torus.new (x + y) = (Torus.new x).add (Torus.new y) := by
  refine ⟨⟨Int.fract_nonneg x, Int.fract_lt_one x⟩, ?_⟩
  show Torus.mk (Int.fract (x + y)) = Torus.mk (Int.fract (Int.fract x + Int.fract y))
  have h : Int.fract x + Int.fract y = (x + y) - ((⌊x⌋ + ⌊y⌋ : ℤ) : ℚ) := by
    unfold Int.fract
    push_cast
    ring
  rw [h, Int.fract_sub_int]

end Ghost
